import Mathlib

/-!
Shallow embedding of the MPI_research SAT toolkit
(src/algorithms/dp.py, src/algorithms/resolution.py, src/algorithms/dpll.py,
src/benchmarks.py).

Python sets of integers / frozensets of integers are modelled as
sorted duplicate-free lists (a deterministic set representation: Python set
iteration order is an implementation detail; the spec blesses any
deterministic choice).  Python dicts are modelled as association lists that
preserve insertion order, like CPython dicts.  CPython floats of the form
2 ** (-n) and their sums are dyadic rationals, modelled exactly by the
structural type Wt below.  Wall-clock timeouts are modelled by a fuel
parameter: running out of fuel plays the role of the timeout verdict.
-/

/-- Ordered insertion into a sorted duplicate-free list of integers;
the basic operation of the list-as-set representation. -/
def insOrd (s : List Int) (x : Int) : List Int :=
  match s with
  | [] => [x]
  | y :: ys => if x < y then x :: y :: ys else if x = y then y :: ys else y :: insOrd ys x

/-- Canonical set-of-integers from a list (models building a Python set). -/
def canonIntSet (l : List Int) : List Int := l.foldl insOrd []

/-- Canonical clause: models freezing a Python iterable of literals into a
frozenset. -/
def canonClause (c : List Int) : List Int := c.foldl insOrd []

/-- Set union of two canonical clauses (models frozenset union). -/
def setUnion (a b : List Int) : List Int := b.foldl insOrd a

/-- Add a clause to a formula modelled as an insertion-ordered
duplicate-free list of clauses (models adding to a Python set of
frozensets). -/
def addClause (phi : List (List Int)) (c : List Int) : List (List Int) :=
  if c ∈ phi then phi else phi ++ [c]

/-- Canonical formula from a clause list (models set(formula) over
frozensets). -/
def canonFormula (cs : List (List Int)) : List (List Int) :=
  (cs.map canonClause).foldl addClause []

/-- Lookup in an insertion-ordered dict from variables to booleans
(models Python dict lookup). -/
def lookupA : List (Nat × Bool) → Nat → Option Bool
  | [], _ => none
  | p :: rest, v => if p.1 = v then some p.2 else lookupA rest v

/-- Dict update preserving the position of an existing key, appending new
keys at the end (CPython dict semantics). -/
def setA : List (Nat × Bool) → Nat → Bool → List (Nat × Bool)
  | [], v, b => [(v, b)]
  | p :: rest, v, b => if p.1 = v then (v, b) :: rest else p :: setA rest v b

/-- Dict key deletion (models del d[v]). -/
def eraseA : List (Nat × Bool) → Nat → List (Nat × Bool)
  | [], _ => []
  | p :: rest, v => if p.1 = v then rest else p :: eraseA rest v

/-- Truth value of a literal under a total assignment of the variables. -/
def litValueUnder (alpha : Nat → Bool) (l : Int) : Bool :=
  if 0 < l then alpha l.natAbs else ! alpha l.natAbs

/-- A clause (disjunction) is satisfied by a total assignment when some
literal of it is true. -/
def clauseSatBy (alpha : Nat → Bool) (c : List Int) : Bool :=
  c.any (litValueUnder alpha)

/-- A CNF formula is satisfied by a total assignment when every clause is. -/
def formulaSatBy (alpha : Nat → Bool) (phi : List (List Int)) : Bool :=
  phi.all (clauseSatBy alpha)

/-- Truth of a literal under a partial model returned by a solver: true
only when the literal's variable is bound and agrees with the literal's
polarity. -/
def litTrueInModel (m : List (Nat × Bool)) (l : Int) : Bool :=
  match lookupA m l.natAbs with
  | none => false
  | some v => if 0 < l then v else ! v

/-! ### DP engine (src/algorithms/dp.py) -/

/-- Literal negation (dp.py, def negate). -/
def negate (l : Int) : Int := -l

/-- Statistics counters shared by the DP and Resolution models
(a Counter in the source). -/
structure DpStats where
  unitProps : Nat
  pureLiterals : Nat
  eliminations : Nat
  resolutionSteps : Nat
deriving DecidableEq

def dpStats0 : DpStats := ⟨0, 0, 0, 0⟩

/-- Result of the recursive procedure DPSolver._dp: None (timeout, here
fuel exhaustion), False, or True with the assignment dict. -/
inductive DpRes where
  | timeout
  | unsat
  | sat (a : List (Nat × Bool))
deriving DecidableEq

/-- Full observable outcome of one DP run.  pureCheckFired instruments
whether the return False inside the pure-literal loop (dp.py line 65-66)
was ever taken. -/
structure DpOut where
  res : DpRes
  stats : DpStats
  pureCheckFired : Bool
deriving DecidableEq

/-- Outcome of processing one snapshot of unit literals. -/
inductive UPOut where
  | conflict (st : DpStats)
  | next (phi : List (List Int)) (a : List (Nat × Bool)) (st : DpStats)
deriving DecidableEq

/-- Inner for-loop of unit propagation (dp.py lines 42-56): process the
snapshot of unit literals one at a time, rebuilding phi; the empty
reduct returns False. -/
def unitPass : List Int → List (List Int) → List (Nat × Bool) → DpStats → UPOut
  | [], phi, a, st => .next phi a st
  | lit :: rest, phi, a, st =>
    let st := { st with unitProps := st.unitProps + 1 }
    let a := setA a lit.natAbs (decide (0 < lit))
    if phi.any (fun c => decide (lit ∉ c) && decide (negate lit ∈ c) && (c.erase (negate lit)).isEmpty)
    then .conflict st
    else
      unitPass rest
        (((phi.filter (fun c => decide (lit ∉ c))).map (fun c => c.erase (negate lit))).foldl addClause [])
        a st

/-- Outcome of the unit-propagation while-loop. -/
inductive ULOut where
  | fuelOut (st : DpStats)
  | conflict (st : DpStats)
  | next (phi : List (List Int)) (a : List (Nat × Bool)) (st : DpStats)
deriving DecidableEq

/-- The unit clauses' chosen literals, as a set (dp.py line 39). -/
def unitLits (phi : List (List Int)) : List Int :=
  canonIntSet ((phi.filter (fun c => c.length = 1)).map (fun c => c.headI))

/-- Unit propagation while-loop (dp.py lines 38-56). -/
def unitLoop : Nat → List (List Int) → List (Nat × Bool) → DpStats → ULOut
  | 0, _, _, st => .fuelOut st
  | fuel+1, phi, a, st =>
    let units := unitLits phi
    if units.isEmpty then .next phi a st
    else
      match unitPass units phi a st with
      | .conflict st => .conflict st
      | .next phi a st => unitLoop fuel phi a st

/-- All literals occurring in a formula, as a set (dp.py lines 59 and 76). -/
def litsOf (phi : List (List Int)) : List Int :=
  phi.foldl (fun acc c => c.foldl insOrd acc) []

/-- Outcome of the pure-literal for-loop. -/
inductive PPOut where
  | fired (st : DpStats)
  | next (phi : List (List Int)) (a : List (Nat × Bool)) (st : DpStats)
deriving DecidableEq

/-- Pure-literal elimination for-loop (dp.py lines 61-66), including the
empty-clause check after removing the clauses that contain the pure
literal. -/
def purePass : List Int → List (List Int) → List (Nat × Bool) → DpStats → PPOut
  | [], phi, a, st => .next phi a st
  | lit :: rest, phi, a, st =>
    let st := { st with pureLiterals := st.pureLiterals + 1 }
    let a := setA a lit.natAbs (decide (0 < lit))
    let phi := phi.filter (fun c => decide (lit ∉ c))
    if phi.any (fun c => c.isEmpty) then .fired st
    else purePass rest phi a st

/-- The recursive procedure DPSolver._dp (dp.py lines 33-93).  Fuel
exhaustion models the timeout check at entry. -/
def dpRec : Nat → List (List Int) → List (Nat × Bool) → DpStats → DpOut
  | 0, _, _, st => ⟨.timeout, st, false⟩
  | fuel+1, phi, a, st =>
    match unitLoop (fuel+1) phi a st with
    | .fuelOut st => ⟨.timeout, st, false⟩
    | .conflict st => ⟨.unsat, st, false⟩
    | .next phi a st =>
      let lits := litsOf phi
      let pures := lits.filter (fun l => decide (negate l ∉ lits))
      match purePass pures phi a st with
      | .fired st => ⟨.unsat, st, true⟩
      | .next phi a st =>
        if phi.isEmpty then ⟨.sat a, st, false⟩
        else if ([] : List Int) ∈ phi then ⟨.unsat, st, false⟩
        else
          let lits2 := litsOf phi
          match lits2.filter (fun l => decide (negate l ∈ lits2)) with
          | [] => ⟨.unsat, st, false⟩
          | lit :: _ =>
            let st := { st with eliminations := st.eliminations + 1 }
            let pos := phi.filter (fun c => decide (lit ∈ c))
            let neg := phi.filter (fun c => decide (negate lit ∈ c))
            let st := { st with resolutionSteps := st.resolutionSteps + pos.length * neg.length }
            let resolvents :=
              pos.foldl (fun acc c1 =>
                neg.foldl (fun acc c2 =>
                  addClause acc (setUnion (c1.erase lit) (c2.erase (negate lit)))) acc) []
            let phi2 :=
              resolvents.foldl addClause
                (phi.filter (fun c => decide (lit ∉ c) && decide (negate lit ∉ c)))
            dpRec fuel phi2 a st

/-- DPSolver.solve (dp.py lines 21-31): run _dp on set(formula) with an
empty assignment dict and fresh statistics. -/
def dpSolve (fuel : Nat) (formula : List (List Int)) : DpOut :=
  dpRec fuel (canonFormula formula) [] dpStats0

/-! ### Resolution engine (src/algorithms/resolution.py) -/

/-- Inner literal loop of one clause pair (resolution.py lines 41-48):
for each literal of ci whose negation is in cj, count a resolution step
and derive the resolvent; an empty resolvent aborts the whole solve with
UNSAT (modelled as the error branch carrying the statistics). -/
def resolveLits : List Int → List Int → List Int → List (List Int) → DpStats →
    Except DpStats (List (List Int) × DpStats)
  | [], _, _, news, st => .ok (news, st)
  | lit :: rest, ci, cj, news, st =>
    if negate lit ∈ cj then
      let st := { st with resolutionSteps := st.resolutionSteps + 1 }
      let r := setUnion (ci.erase lit) (cj.erase (negate lit))
      if r.isEmpty then .error st
      else resolveLits rest ci cj (addClause news r) st
    else resolveLits rest ci cj news st

/-- Pair ci against every clause of the tail (the j-loop of
resolution.py lines 39-48). -/
def resolveAgainst : List Int → List (List Int) → List (List Int) → DpStats →
    Except DpStats (List (List Int) × DpStats)
  | _, [], news, st => .ok (news, st)
  | ci, cj :: tail, news, st =>
    match resolveLits ci ci cj news st with
    | .error st => .error st
    | .ok (news, st) => resolveAgainst ci tail news st

/-- One full round over all unordered pairs i < j (resolution.py lines
38-48). -/
def resolveRound : List (List Int) → List (List Int) → DpStats →
    Except DpStats (List (List Int) × DpStats)
  | [], news, st => .ok (news, st)
  | ci :: tail, news, st =>
    match resolveAgainst ci tail news st with
    | .error st => .error st
    | .ok (news, st) => resolveRound tail news st

/-- The saturation while-loop of ResolutionSolver._resolve
(resolution.py lines 25-54).  none models the timeout verdict (fuel
exhaustion at the top of a round). -/
def resolveLoop : Nat → List (List Int) → DpStats → Option Bool × DpStats
  | 0, _, st => (none, st)
  | fuel+1, clauses, st =>
    match resolveRound clauses [] st with
    | .error st => (some false, st)
    | .ok (news, st) =>
      if news.all (fun c => decide (c ∈ clauses)) then (some true, st)
      else resolveLoop fuel (news.foldl addClause clauses) st

/-- ResolutionSolver.solve (resolution.py lines 17-23); the returned
model is always the empty dict in the source. -/
def resolutionSolve (fuel : Nat) (formula : List (List Int)) : Option Bool × DpStats :=
  resolveLoop fuel (canonFormula formula) dpStats0

/-! ### DPLL engine (src/algorithms/dpll.py) -/

/-- Exact dyadic value num / 2 ^ exp: the values the source's float
Jeroslow-Wang weights 2 ** (-len) and their sums take (all exactly
representable in binary floating point at the sizes involved). -/
structure Wt where
  num : Int
  exp : Nat
deriving DecidableEq

/-- The clause weight 2 ** (-n) (dpll.py line 44). -/
def Wt.ofLen (n : Nat) : Wt := ⟨1, n⟩

/-- Dyadic addition without normalisation. -/
def Wt.add (a b : Wt) : Wt := ⟨a.num * 2 ^ b.exp + b.num * 2 ^ a.exp, a.exp + b.exp⟩

/-- Strict value comparison of two dyadics, as a proposition. -/
def Wt.ltP (a b : Wt) : Prop := a.num * 2 ^ b.exp < b.num * 2 ^ a.exp

/-- Non-strict value comparison of two dyadics. -/
def Wt.leP (a b : Wt) : Prop := a.num * 2 ^ b.exp ≤ b.num * 2 ^ a.exp

instance (a b : Wt) : Decidable (Wt.ltP a b) := by
  unfold Wt.ltP; infer_instance

instance (a b : Wt) : Decidable (Wt.leP a b) := by
  unfold Wt.leP; infer_instance

/-- The initial best weight -1.0 of pick_branch_var (dpll.py line 110). -/
def Wt.negOne : Wt := ⟨-1, 0⟩

/-- Lookup in the insertion-ordered weight dict. -/
def lookupW : List (Nat × Wt) → Nat → Option Wt
  | [], _ => none
  | p :: rest, v => if p.1 = v then some p.2 else lookupW rest v

/-- Counter update self.jw_weights[abs(lit)] += w: in-place when the key
exists, appended in insertion order when it does not (a missing Counter
key counts as zero). -/
def addWeight : List (Nat × Wt) → Nat → Wt → List (Nat × Wt)
  | [], v, w => [(v, w)]
  | p :: rest, v, w => if p.1 = v then (p.1, Wt.add p.2 w) :: rest else p :: addWeight rest v w

/-- FastDPLLSolver._init_weights (dpll.py lines 41-46). -/
def initWeights (clauses : List (List Int)) : List (Nat × Wt) :=
  clauses.foldl (fun jw c =>
    c.foldl (fun jw l => addWeight jw l.natAbs (Wt.ofLen c.length)) jw) []

/-- Watch-list access: a defaultdict(list) read returns the empty list
for a missing key. -/
def wlGet : List (Int × List Nat) → Int → List Nat
  | [], _ => []
  | p :: rest, l => if p.1 = l then p.2 else wlGet rest l

/-- Append a clause index to a literal's watcher list, creating the entry
when missing (defaultdict(list).append). -/
def wlAppend : List (Int × List Nat) → Int → Nat → List (Int × List Nat)
  | [], l, ci => [(l, [ci])]
  | p :: rest, l, ci => if p.1 = l then (p.1, p.2 ++ [ci]) :: rest else p :: wlAppend rest l ci

/-- Clear a literal's watcher list in place; a defaultdict access also
creates the (now empty) entry when missing (dpll.py lines 87-88). -/
def wlSetEmpty : List (Int × List Nat) → Int → List (Int × List Nat)
  | [], l => [(l, [])]
  | p :: rest, l => if p.1 = l then (p.1, []) :: rest else p :: wlSetEmpty rest l

/-- FastDPLLSolver._init_watches (dpll.py lines 48-56): watch the first
two literals of each clause, or the only literal of a unit clause. -/
def initWatches (clauses : List (List Int)) : List (Int × List Nat) :=
  clauses.enum.foldl (fun wl p =>
    (if p.2.length > 1 then p.2.take 2 else p.2.take 1).foldl
      (fun wl l => wlAppend wl l p.1) wl) []

/-- Solver state: the mutable fields of a FastDPLLSolver instance.
decLog is instrumentation recording, in order, every literal enqueued as
a decision. -/
structure DpllState where
  clauses : List (List Int)
  numVars : Nat
  assignments : List (Nat × Bool)
  trail : List Nat
  levels : List Nat
  watchList : List (Int × List Nat)
  jw : List (Nat × Wt)
  statDecisions : Nat
  statUnitProps : Nat
  statBacktracks : Nat
  decLog : List Int
deriving DecidableEq

/-- Python runtime errors the source can raise, plus the fuel artifact of
the embedding. -/
inductive DpllErr where
  | fuel
  | valueErr
  | typeErr
  | indexErr
deriving DecidableEq

/-- FastDPLLSolver.value_of (dpll.py lines 58-62). -/
def valueOf (s : DpllState) (l : Int) : Option Bool :=
  match lookupA s.assignments l.natAbs with
  | none => none
  | some v => some (if 0 < l then v else ! v)

/-- FastDPLLSolver.__init__ (dpll.py lines 27-39): the max() over an
empty sequence of literals raises ValueError. -/
def dpllInit (clauses : List (List Int)) : Except DpllErr DpllState :=
  match (clauses.foldr (fun c acc => c ++ acc) []).map Int.natAbs with
  | [] => .error .valueErr
  | v :: vs =>
    .ok { clauses := clauses
          numVars := vs.foldl max v
          assignments := []
          trail := []
          levels := []
          watchList := initWatches clauses
          jw := initWeights clauses
          statDecisions := 0
          statUnitProps := 0
          statBacktracks := 0
          decLog := [] }

/-- The mutually recursive enqueue / _propagate pair together with the
watcher loop inside _propagate, combined into one fuel-indexed function
(the recursion of dpll.py lines 74-106 is not structurally terminating,
so each reentry consumes fuel). -/
inductive DpllCall where
  | enq (lit : Int) (isDec : Bool)
  | prop (falseLit : Int)
  | watch (falseLit : Int) (ws : List Nat)

/-- dpllGo fuel s (.enq lit d) is FastDPLLSolver.enqueue (dpll.py lines
74-84); dpllGo fuel s (.prop f) is _propagate (lines 86-106); .watch is
the for-loop over the snapshot of watchers inside _propagate.  The
boolean result is the Python return value (False = conflict). -/
def dpllGo : Nat → DpllState → DpllCall → Except DpllErr (DpllState × Bool)
  | 0, _, _ => .error .fuel
  | fuel+1, s, .enq lit isDec =>
    match lookupA s.assignments lit.natAbs with
    | some v => .ok (s, v == decide (0 < lit))
    | none =>
      let s := { s with assignments := s.assignments ++ [(lit.natAbs, decide (0 < lit))],
                        trail := s.trail ++ [lit.natAbs] }
      let s := if isDec then s else { s with statUnitProps := s.statUnitProps + 1 }
      dpllGo fuel s (.prop (-lit))
  | fuel+1, s, .prop falseLit =>
    let ws := wlGet s.watchList falseLit
    dpllGo fuel { s with watchList := wlSetEmpty s.watchList falseLit } (.watch falseLit ws)
  | _+1, s, .watch _ [] => .ok (s, true)
  | fuel+1, s, .watch falseLit (ci :: rest) =>
    let clause := s.clauses.getD ci []
    match clause.find? (fun alt => decide (alt ≠ falseLit) && decide (valueOf s alt ≠ some false)) with
    | some alt => dpllGo fuel { s with watchList := wlAppend s.watchList alt ci } (.watch falseLit rest)
    | none =>
      match clause.filter (fun l => decide (valueOf s l = none)) with
      | [] => .ok (s, false)
      | u :: _ =>
        match dpllGo fuel s (.enq u false) with
        | .error e => .error e
        | .ok (s, b) => if b then dpllGo fuel s (.watch falseLit rest) else .ok (s, false)

/-- FastDPLLSolver.enqueue. -/
def enqueue (fuel : Nat) (s : DpllState) (lit : Int) (isDec : Bool) :
    Except DpllErr (DpllState × Bool) :=
  dpllGo fuel s (.enq lit isDec)

/-- FastDPLLSolver.new_level (dpll.py lines 64-65). -/
def newLevel (s : DpllState) : DpllState :=
  { s with levels := s.levels ++ [s.trail.length] }

/-- Pop n entries off the trail, unassigning each popped variable
(the while-loop of dpll.py lines 70-72). -/
def popTrailN : Nat → DpllState → DpllState
  | 0, s => s
  | n+1, s =>
    match s.trail.getLast? with
    | none => s
    | some v =>
      popTrailN n { s with trail := s.trail.dropLast, assignments := eraseA s.assignments v }

/-- FastDPLLSolver.backtrack (dpll.py lines 67-72); popping an empty
levels list raises IndexError. -/
def backtrack (s : DpllState) : Except DpllErr DpllState :=
  match s.levels.getLast? with
  | none => .error .indexErr
  | some mark =>
    .ok (popTrailN (s.trail.length - mark)
      { s with levels := s.levels.dropLast, statBacktracks := s.statBacktracks + 1 })

/-- One iteration of the pick_branch_var loop (dpll.py lines 111-114):
keep the candidate when the variable is unassigned and its weight is
strictly larger than the best so far. -/
def pickStep (asg : List (Nat × Bool)) (best : Option Nat × Wt) (p : Nat × Wt) :
    Option Nat × Wt :=
  if (lookupA asg p.1).isNone && decide (Wt.ltP best.2 p.2) then (some p.1, p.2) else best

/-- FastDPLLSolver.pick_branch_var (dpll.py lines 108-116): scan the
weight dict in insertion order, keeping the first unassigned variable of
strictly larger weight than the best so far. -/
def pickBranchVar (jw : List (Nat × Wt)) (asg : List (Nat × Bool)) : Option Nat :=
  (jw.foldl (pickStep asg) ((none : Option Nat), Wt.negOne)).1

/-- The literal enqueued on the first branch of a decision: the picked
variable with positive polarity (dpll.py lines 116 and 140). -/
def firstDecisionLit (v : Nat) : Int := Int.ofNat v

/-- FastDPLLSolver._dpll (dpll.py lines 130-147).  A None pick flows
into abs(None) inside enqueue and raises TypeError. -/
def dpllSearch : Nat → DpllState → Except DpllErr (DpllState × Bool)
  | 0, _ => .error .fuel
  | fuel+1, s =>
    if s.assignments.length = s.numVars then .ok (s, true)
    else
      let s := newLevel s
      match pickBranchVar s.jw s.assignments with
      | none => .error .typeErr
      | some v =>
        let s := { s with statDecisions := s.statDecisions + 1,
                          decLog := s.decLog ++ [firstDecisionLit v] }
        match dpllGo (fuel+1) s (.enq (firstDecisionLit v) true) with
        | .error e => .error e
        | .ok (s, ok1) =>
          match (if ok1 then dpllSearch fuel s else .ok (s, false) :
                 Except DpllErr (DpllState × Bool)) with
          | .error e => .error e
          | .ok (s, r1) =>
            if r1 then .ok (s, true)
            else
              match backtrack s with
              | .error e => .error e
              | .ok s =>
                let s := newLevel s
                let s := { s with decLog := s.decLog ++ [-(firstDecisionLit v)] }
                match dpllGo (fuel+1) s (.enq (-(firstDecisionLit v)) true) with
                | .error e => .error e
                | .ok (s, ok2) =>
                  match (if ok2 then dpllSearch fuel s else .ok (s, false) :
                         Except DpllErr (DpllState × Bool)) with
                  | .error e => .error e
                  | .ok (s, r2) =>
                    if r2 then .ok (s, true)
                    else
                      match backtrack s with
                      | .error e => .error e
                      | .ok s => .ok (s, false)

/-- The initial unit-clause loop of FastDPLLSolver.solve (dpll.py lines
121-124); a failed enqueue ends solve with False. -/
def dpllInitialUnits (fuel : Nat) : List (Nat × List Int) → DpllState →
    Except DpllErr (DpllState × Bool)
  | [], s => .ok (s, true)
  | (_, c) :: rest, s =>
    if c.length = 1 then
      match dpllGo fuel s (.enq c.headI false) with
      | .error e => .error e
      | .ok (s, b) => if b then dpllInitialUnits fuel rest s else .ok (s, false)
    else dpllInitialUnits fuel rest s

/-- Observable outcome of FastDPLLSolver.solve: verdict, returned model
dict, and final state (carrying the statistics). -/
structure DpllAnswer where
  sat : Bool
  model : List (Nat × Bool)
  state : DpllState
deriving DecidableEq

/-- FastDPLLSolver.solve (dpll.py lines 118-128): construct the solver,
propagate the initial unit clauses (an immediate conflict returns False
with an empty model), then run _dpll and return its verdict together
with the assignment dict. -/
def dpllSolve (fuel : Nat) (clauses : List (List Int)) : Except DpllErr DpllAnswer :=
  match dpllInit clauses with
  | .error e => .error e
  | .ok s =>
    match dpllInitialUnits fuel s.clauses.enum s with
    | .error e => .error e
    | .ok (s, false) => .ok ⟨false, [], s⟩
    | .ok (s, true) =>
      match dpllSearch fuel s with
      | .error e => .error e
      | .ok (s, sat) => .ok ⟨sat, s.assignments, s⟩

/-- Number of watch slots currently pointing at clause ci (with
multiplicity across the whole watch index). -/
def watchSlotsOf (s : DpllState) (ci : Nat) : Nat :=
  s.watchList.foldl (fun n p => n + (p.2.filter (fun j => j == ci)).length) 0

/-- The distinct literals watching clause ci. -/
def watchLitsOf (s : DpllState) (ci : Nat) : List Int :=
  (s.watchList.filter (fun p => p.2.contains ci)).map (fun p => p.1)

/-- Whether clause ci is satisfied under the state's current partial
assignment. -/
def clauseSatisfiedIn (s : DpllState) (ci : Nat) : Bool :=
  (s.clauses.getD ci []).any (fun l => valueOf s l == some true)

/-! ### DIMACS reader (load_dimacs in dp.py / dpll.py / resolution.py /
benchmarks.py) -/

/-- Strip leading and trailing whitespace (str.strip). -/
def trimChars (l : List Char) : List Char :=
  ((l.dropWhile Char.isWhitespace).reverse.dropWhile Char.isWhitespace).reverse

/-- Whether the stripped line is skipped: blank or starting with c, p or
the percent sign. -/
def skipLineB (l : List Char) : Bool :=
  match l with
  | [] => true
  | c :: _ => c == 'c' || c == 'p' || c == '%'

/-- Whitespace tokenisation (str.split with no separator: runs of
whitespace, no empty tokens); cur accumulates the current token in
reverse. -/
def tokensAux : List Char → List Char → List (List Char)
  | [], cur => if cur.isEmpty then [] else [cur.reverse]
  | c :: rest, cur =>
    if c.isWhitespace then
      if cur.isEmpty then tokensAux rest [] else cur.reverse :: tokensAux rest []
    else tokensAux rest (c :: cur)

def tokensOf (l : List Char) : List (List Char) := tokensAux l []

/-- Decimal digit accumulation for int(). -/
def digitsAux : List Char → Nat → Option Nat
  | [], acc => some acc
  | c :: rest, acc =>
    if c.isDigit then digitsAux rest (acc * 10 + (c.toNat - 48)) else none

/-- Python int(token) on a whitespace-free token: an optional sign
followed by at least one digit; anything else raises ValueError
(modelled as none). -/
def pyInt (t : List Char) : Option Int :=
  match t with
  | [] => none
  | '-' :: rest =>
    if rest.isEmpty then none else (digitsAux rest 0).map (fun n => -(n : Int))
  | '+' :: rest =>
    if rest.isEmpty then none else (digitsAux rest 0).map (fun n => (n : Int))
  | _ => (digitsAux t 0).map (fun n => (n : Int))

/-- list(map(int, tokens)): the first bad token raises. -/
def parseTokens : List (List Char) → Option (List Int)
  | [] => some []
  | t :: rest =>
    match pyInt t with
    | none => none
    | some n => (parseTokens rest).map (fun l => n :: l)

/-- Drop a single trailing 0 sentinel (dp.py lines 106-107): only the
last token is inspected. -/
def stripTrailingZero (lits : List Int) : List Int :=
  match lits.getLast? with
  | some 0 => lits.dropLast
  | _ => lits

/-- The only error the readers raise while tokenising: int() on a
non-integer token (the source has no ParseError class; the ValueError
propagates). -/
inductive ParseErr where
  | nonIntToken
deriving DecidableEq

/-- load_dimacs over the lines of the input text (identical in all four
files up to frozenset vs list clauses; clause contents are returned in
file order here).  Note no check rejects a zero literal occurring before
the final position. -/
def load_dimacs : List String → Except ParseErr (List (List Int))
  | [] => .ok []
  | line :: rest =>
    let l := trimChars line.data
    if skipLineB l then load_dimacs rest
    else
      match parseTokens (tokensOf l) with
      | none => .error .nonIntToken
      | some lits =>
        let lits := stripTrailingZero lits
        match load_dimacs rest with
        | .error e => .error e
        | .ok cs => .ok (if lits.isEmpty then cs else lits :: cs)

/-! ### Benchmark harnesses (resolution.py run_benchmark and
benchmarks.py run_all) -/

/-- The subdirectories resolution.py's run_benchmark iterates
(resolution.py line 98). -/
def resolutionBenchSubdirs : List String := ["sat", "unsat"]

/-- The expectation resolution.py's run_benchmark computes from the
subdirectory name (resolution.py line 99). -/
def resolutionBenchExpected (sub : String) : String :=
  if sub = "satisfiable" then "SAT" else "UNSAT"

/-- The subdirectory-to-expectation table of benchmarks.py (EXPECT_DIR). -/
def runAllExpectDir : List (String × String) :=
  [("satisfiable", "SAT"), ("unsatisfiable", "UNSAT")]

/-- The Correct CSV field: result equals the computed expectation
(resolution.py line 118, benchmarks.py line 75). -/
def rowCorrect (result expected : String) : Bool := result == expected

/-- Modelled from the spec: the expectation derived from the file's
subdirectory, SAT for the expected-satisfiable subdirectory and UNSAT
for the expected-unsatisfiable one (covering both naming schemes the
harnesses use). -/
def specSubdirExpectation (sub : String) : Option String :=
  if sub = "sat" || sub = "satisfiable" then some "SAT"
  else if sub = "unsat" || sub = "unsatisfiable" then some "UNSAT"
  else none

deriving instance DecidableEq for Except

/-! ### Theorems -/

/-- C1: the claim that every SAT verdict of DP or DPLL comes with a model
satisfying every input clause fails on the code: DPLL on the formula
with clauses ∅ and (1) returns SAT with model 1 ↦ true, although no
assignment at all satisfies the empty clause, which the solver never
watches and hence never examines. -/
theorem c1_dpll_sat_verdict_with_nonsatisfying_model :
    (dpllSolve 100 [[], [1]]).toOption.map (fun a => (a.sat, a.model)) =
      some (true, [(1, true)]) ∧
    (∀ alpha : Nat → Bool, formulaSatBy alpha [[], [1]] = false) ∧
    ([] : List Int).any (litTrueInModel [(1, true)]) = false :=
  ⟨by decide, fun _ => rfl, rfl⟩

/-- C2: the claim that every UNSAT verdict is sound fails on the code:
DP returns UNSAT on the satisfiable formula (1 ∨ ¬2) ∧ (3 ∨ ¬4) ∧ (2 ∨ 4),
which the all-true assignment satisfies.  One-pass pure-literal
elimination (on 1 and 3) leaves the single clause (2 ∨ 4) in which every
literal is pure, and the no-candidates branch of the elimination step
then returns False. -/
theorem c2_dp_unsat_verdict_on_satisfiable_formula :
    (dpSolve 20 [[1, -2], [3, -4], [2, 4]]).res = DpRes.unsat ∧
    formulaSatBy (fun _ => true) [[1, -2], [3, -4], [2, 4]] = true :=
  ⟨by decide, by decide⟩

/-- C3 counterexample: Resolution on the formula whose only clause is the
empty clause returns SAT, not UNSAT: the empty clause contains no
literal, so it never takes part in a resolution step, and the clause set
is already saturated. -/
theorem c3_resolution_sat_on_formula_with_empty_clause :
    resolutionSolve 5 [[]] = (some true, dpStats0) := by decide

/-- C4 counterexample: DPLL's constructor evaluates max() over the empty
sequence of literals of the empty formula and raises ValueError, so
solve never returns a SAT verdict there. -/
theorem c4_dpll_error_on_empty_formula :
    dpllSolve 5 [] = Except.error DpllErr.valueErr := by decide

/-- C4 amended: on the empty formula, Resolution and DP return SAT with
an empty model and untouched statistics, while DPLL raises ValueError in
its constructor. -/
theorem c4_resolution_dp_sat_dpll_error_on_empty_formula :
    resolutionSolve 5 [] = (some true, dpStats0) ∧
    (dpSolve 5 []).res = DpRes.sat [] ∧
    (dpSolve 5 []).stats = dpStats0 ∧
    dpllSolve 5 [] = Except.error DpllErr.valueErr := by decide

/-- C5: on input (¬1) ∧ (1 ∨ 2 ∨ 3), at the first point where the solver
is about to decide (right after propagating the initial unit clause ¬1),
clause index 1 is unsatisfied and has length 3, yet it occupies two
watch slots on the single literal 2: the replacement scan moved the
watch from the falsified literal 1 onto 2, which was already the other
watch.  The clause is therefore not watched by two distinct literals. -/
theorem c5_duplicate_watch_at_decision_point :
    ((dpllInit [[-1], [1, 2, 3]]).toOption.bind
        (fun s => (dpllInitialUnits 100 s.clauses.enum s).toOption)).map
      (fun p => (p.2, clauseSatisfiedIn p.1 1, (p.1.clauses.getD 1 []).length,
                 watchSlotsOf p.1 1, watchLitsOf p.1 1)) =
      some (true, false, 3, 2, [2]) := by decide

/-- C6 counterexample: the readers do not reject a zero literal occurring
before the final token: the line 1 0 2 0 parses successfully into the
single clause containing the literals 1, 0 and 2, with the zero kept. -/
theorem c6_interior_zero_accepted :
    load_dimacs ["1 0 2 0"] = Except.ok [[1, 0, 2]] ∧ (0 : Int) ∈ [1, 0, 2] :=
  ⟨by decide, by decide⟩

/-- C8 counterexample: on the formula with clauses (2 ∨ 1) and (1 ∨ 2),
variables 1 and 2 carry equal Jeroslow-Wang weight 8/2^4 = 1/2 and both
are unassigned when the first decision is made (the initial unit loop
assigns nothing), yet the first decision literal of the run is 2, not
the lower-indexed 1: ties are broken by first occurrence in the clause
list, not by lowest index. -/
theorem c8_first_decision_ignores_lower_index_tie :
    (dpllSolve 50 [[2, 1], [1, 2]]).toOption.map (fun a => (a.sat, a.state.decLog)) =
      some (true, [2, 1]) ∧
    ((dpllInit [[2, 1], [1, 2]]).toOption.bind
        (fun s => (dpllInitialUnits 50 s.clauses.enum s).toOption)).map
      (fun p => p.1.assignments) = some [] ∧
    lookupW (initWeights [[2, 1], [1, 2]]) 1 = some ⟨8, 4⟩ ∧
    lookupW (initWeights [[2, 1], [1, 2]]) 2 = some ⟨8, 4⟩ := by decide

/-- C9: resolution.py's run_benchmark iterates the subdirectories named
sat and unsat but derives the expectation by comparing the subdirectory
name against the string satisfiable, so the expectation is UNSAT even
for the sat subdirectory; a file there solved with verdict SAT gets
Correct = false although the verdict matches the subdirectory's
expectation SAT. -/
theorem c9_resolution_benchmark_correct_field_wrong_for_sat_subdir :
    "sat" ∈ resolutionBenchSubdirs ∧
    specSubdirExpectation "sat" = some "SAT" ∧
    resolutionBenchExpected "sat" = "UNSAT" ∧
    rowCorrect "SAT" (resolutionBenchExpected "sat") = false := by decide

/-- C10: enqueue on a literal whose variable is already assigned performs
no propagation and leaves the entire solver state unchanged, returning
true exactly when the stored value agrees with the literal's polarity. -/
theorem c10_enqueue_assigned_var_is_pure_query (fuel : Nat) (s : DpllState)
    (lit : Int) (isDec : Bool) (v : Bool)
    (h : lookupA s.assignments lit.natAbs = some v) :
    enqueue (fuel + 1) s lit isDec = Except.ok (s, v == decide (0 < lit)) := by
  simp [enqueue, dpllGo, h]

theorem c10_enqueue_assigned_var_is_pure_query_witness :
    lookupA (⟨[], 0, [(1, true)], [1], [], [], [], 0, 0, 0, []⟩ : DpllState).assignments
        (-1 : Int).natAbs = some true ∧
    enqueue 1 (⟨[], 0, [(1, true)], [1], [], [], [], 0, 0, 0, []⟩ : DpllState) (-1) false =
      Except.ok ((⟨[], 0, [(1, true)], [1], [], [], [], 0, 0, 0, []⟩ : DpllState),
        true == decide (0 < (-1 : Int))) :=
  ⟨by decide, c10_enqueue_assigned_var_is_pure_query 0
    (⟨[], 0, [(1, true)], [1], [], [], [], 0, 0, 0, []⟩ : DpllState) (-1) false true (by decide)⟩

/-! ### Set-representation lemmas -/

theorem insOrd_ne_nil (s : List Int) (x : Int) : insOrd s x ≠ [] := by
  cases s with
  | nil => simp [insOrd]
  | cons y ys =>
    simp only [insOrd]
    split_ifs <;> simp

theorem foldl_insOrd_eq_nil {b a : List Int} (h : b.foldl insOrd a = []) :
    a = [] ∧ b = [] := by
  induction b generalizing a with
  | nil => exact ⟨h, rfl⟩
  | cons y ys ih =>
    simp only [List.foldl_cons] at h
    exact absurd (ih h).1 (insOrd_ne_nil a y)

theorem mem_insOrd {s : List Int} {x y : Int} : y ∈ insOrd s x ↔ y ∈ s ∨ y = x := by
  induction s with
  | nil => simp [insOrd, eq_comm]
  | cons z zs ih =>
    simp only [insOrd]
    split_ifs with h1 h2
    · simp only [List.mem_cons]; tauto
    · subst h2; simp only [List.mem_cons]; tauto
    · simp only [List.mem_cons, ih]; tauto

theorem mem_setUnion {a b : List Int} {y : Int} :
    y ∈ setUnion a b ↔ y ∈ a ∨ y ∈ b := by
  unfold setUnion
  induction b generalizing a with
  | nil => simp
  | cons z zs ih =>
    simp only [List.foldl_cons, ih, mem_insOrd, List.mem_cons]
    tauto

theorem setUnion_eq_nil {a b : List Int} (h : setUnion a b = []) : a = [] :=
  (foldl_insOrd_eq_nil h).1

theorem mem_addClause {phi : List (List Int)} {c d : List Int} :
    d ∈ addClause phi c ↔ d ∈ phi ∨ d = c := by
  unfold addClause
  split_ifs with h
  · exact ⟨Or.inl, fun h2 => h2.elim id (fun hd => hd ▸ h)⟩
  · simp [List.mem_append]

theorem mem_foldl_addClause {l init : List (List Int)} {c : List Int} :
    c ∈ l.foldl addClause init ↔ c ∈ init ∨ c ∈ l := by
  induction l generalizing init with
  | nil => simp
  | cons d ds ih =>
    simp only [List.foldl_cons, ih, mem_addClause, List.mem_cons]
    tauto

theorem mem_foldl_addClause_image {β : Type} {l : List β} {g : β → List Int} :
    ∀ {init : List (List Int)} {x : List Int},
      x ∈ l.foldl (fun acc c => addClause acc (g c)) init ↔ x ∈ init ∨ ∃ c ∈ l, x = g c := by
  induction l with
  | nil => intro init x; simp
  | cons e es ih =>
    intro init x
    simp only [List.foldl_cons, ih, mem_addClause, List.mem_cons]
    constructor
    · rintro ((h | h) | ⟨c, hc, hx⟩)
      · exact Or.inl h
      · exact Or.inr ⟨e, Or.inl rfl, h⟩
      · exact Or.inr ⟨c, Or.inr hc, hx⟩
    · rintro (h | ⟨c, (rfl | hc), hx⟩)
      · exact Or.inl (Or.inl h)
      · exact Or.inl (Or.inr hx)
      · exact Or.inr ⟨c, hc, hx⟩

theorem mem_foldl_addClause_image2 {α β : Type} {l1 : List α} {l2 : List β}
    {g : α → β → List Int} :
    ∀ {init : List (List Int)} {x : List Int},
      x ∈ l1.foldl (fun acc c1 => l2.foldl (fun acc c2 => addClause acc (g c1 c2)) acc) init ↔
        x ∈ init ∨ ∃ c1 ∈ l1, ∃ c2 ∈ l2, x = g c1 c2 := by
  induction l1 with
  | nil => intro init x; simp
  | cons d ds ih =>
    intro init x
    simp only [List.foldl_cons, ih, mem_foldl_addClause_image, List.mem_cons]
    constructor
    · rintro ((h | ⟨c2, hc2, hx⟩) | ⟨c1, hc1, c2, hc2, hx⟩)
      · exact Or.inl h
      · exact Or.inr ⟨d, Or.inl rfl, c2, hc2, hx⟩
      · exact Or.inr ⟨c1, Or.inr hc1, c2, hc2, hx⟩
    · rintro (h | ⟨c1, (rfl | hc1), c2, hc2, hx⟩)
      · exact Or.inl (Or.inl h)
      · exact Or.inl (Or.inr ⟨c2, hc2, hx⟩)
      · exact Or.inr ⟨c1, hc1, c2, hc2, hx⟩

theorem erase_eq_nil_cases {c : List Int} {x : Int} (h : c.erase x = []) :
    c = [] ∨ c = [x] := by
  cases c with
  | nil => exact Or.inl rfl
  | cons y ys =>
    rw [List.erase_cons] at h
    by_cases hyx : y = x
    · subst hyx
      simp only [beq_self_eq_true, if_true] at h
      exact Or.inr (by rw [h])
    · simp [hyx] at h

/-! ### DP invariant lemmas -/

theorem unitPass_next_mem {lits : List Int} :
    ∀ {phi : List (List Int)} {a st phi2 a2 st2},
      unitPass lits phi a st = .next phi2 a2 st2 →
      (([] : List Int) ∈ phi2 → ([] : List Int) ∈ phi) ∧
      (([] : List Int) ∈ phi → ([] : List Int) ∈ phi2) := by
  induction lits with
  | nil =>
    intro phi a st phi2 a2 st2 h
    cases h
    exact ⟨id, id⟩
  | cons lit rest ih =>
    intro phi a st phi2 a2 st2 h
    simp only [unitPass] at h
    by_cases hcond : phi.any (fun c => decide (lit ∉ c) && decide (negate lit ∈ c) &&
        (c.erase (negate lit)).isEmpty) = true
    · rw [if_pos hcond] at h; cases h
    · rw [if_neg hcond] at h
      obtain ⟨f1, f2⟩ := ih h
      constructor
      · intro h2
        have h3 := f1 h2
        rw [mem_foldl_addClause] at h3
        rcases h3 with h3 | h3
        · cases h3
        · obtain ⟨c, hc, hce⟩ := List.mem_map.mp h3
          rcases erase_eq_nil_cases hce with rfl | rfl
          · exact (List.mem_filter.mp hc).1
          · exfalso
            apply hcond
            refine List.any_eq_true.mpr ⟨[negate lit], (List.mem_filter.mp hc).1, ?_⟩
            have hnot : lit ∉ [negate lit] := by
              have := (List.mem_filter.mp hc).2
              simpa using this
            simp only [List.mem_singleton] at hnot
            simp [List.erase_cons_head, hnot]
      · intro h2
        apply f2
        rw [mem_foldl_addClause]
        refine Or.inr (List.mem_map.mpr ⟨[], List.mem_filter.mpr ⟨h2, by simp⟩, by simp⟩)

theorem unitLoop_next_props {fuel : Nat} :
    ∀ {phi : List (List Int)} {a st phi2 a2 st2},
      unitLoop fuel phi a st = .next phi2 a2 st2 →
      unitLits phi2 = [] ∧
      (([] : List Int) ∈ phi2 → ([] : List Int) ∈ phi) ∧
      (([] : List Int) ∈ phi → ([] : List Int) ∈ phi2) := by
  induction fuel with
  | zero => intro phi a st phi2 a2 st2 h; cases h
  | succ f ih =>
    intro phi a st phi2 a2 st2 h
    simp only [unitLoop] at h
    by_cases hu : (unitLits phi).isEmpty = true
    · rw [if_pos hu] at h
      injection h with h1 h2 h3
      subst h1; subst h2; subst h3
      refine ⟨?_, id, id⟩
      cases hul : unitLits phi with
      | nil => rfl
      | cons z zs => rw [hul] at hu; simp at hu
    · rw [if_neg hu] at h
      cases hp : unitPass (unitLits phi) phi a st with
      | conflict st3 => rw [hp] at h; cases h
      | next phi3 a3 st3 =>
        rw [hp] at h
        obtain ⟨g1, g2, g3⟩ := ih h
        obtain ⟨k1, k2⟩ := unitPass_next_mem hp
        exact ⟨g1, fun hh => k1 (g2 hh), fun hh => g3 (k2 hh)⟩

theorem unitLits_nil_no_units {phi : List (List Int)} (h : unitLits phi = []) :
    ∀ c ∈ phi, c.length ≠ 1 := by
  intro c hc hlen
  unfold unitLits canonIntSet at h
  have h2 := (foldl_insOrd_eq_nil h).2
  rw [List.map_eq_nil_iff] at h2
  rw [List.filter_eq_nil_iff] at h2
  have := h2 c hc
  simp [hlen] at this

theorem purePass_no_empty {lits : List Int} :
    ∀ {phi : List (List Int)} {a st}, ([] : List Int) ∉ phi →
      ∃ phi2 a2 st2, purePass lits phi a st = .next phi2 a2 st2 ∧
        ([] : List Int) ∉ phi2 ∧ ∀ c ∈ phi2, c ∈ phi := by
  induction lits with
  | nil =>
    intro phi a st h
    exact ⟨phi, a, st, rfl, h, fun c hc => hc⟩
  | cons lit rest ih =>
    intro phi a st h
    have hsub : ∀ c ∈ phi.filter (fun c => decide (lit ∉ c)), c ∈ phi :=
      fun c hc => (List.mem_filter.mp hc).1
    have hne : ([] : List Int) ∉ phi.filter (fun c => decide (lit ∉ c)) :=
      fun hmem => h (hsub _ hmem)
    have hany : (phi.filter (fun c => decide (lit ∉ c))).any (fun c => c.isEmpty) = false := by
      rw [Bool.eq_false_iff]
      intro hct
      obtain ⟨c, hc, hemp⟩ := List.any_eq_true.mp hct
      cases c with
      | nil => exact hne hc
      | cons z zs => cases hemp
    obtain ⟨phi2, a2, st2, heq, hn2, hs2⟩ := ih hne
    refine ⟨phi2, a2, st2, ?_, hn2, fun c hc => hsub _ (hs2 c hc)⟩
    simp only [purePass, hany]
    rw [if_neg (by simp)]
    exact heq

theorem purePass_empty_clause {lits : List Int} {phi : List (List Int)} {a st}
    (h : ([] : List Int) ∈ phi) :
    (∃ st2, purePass lits phi a st = .fired st2) ∨
      purePass lits phi a st = .next phi a st := by
  cases lits with
  | nil => exact Or.inr rfl
  | cons lit rest =>
    left
    have hmem : ([] : List Int) ∈ phi.filter (fun c => decide (lit ∉ c)) :=
      List.mem_filter.mpr ⟨h, by simp⟩
    have hany : (phi.filter (fun c => decide (lit ∉ c))).any (fun c => c.isEmpty) = true :=
      List.any_eq_true.mpr ⟨[], hmem, rfl⟩
    refine ⟨{ st with pureLiterals := st.pureLiterals + 1 }, ?_⟩
    simp only [purePass, hany, if_true]

theorem empty_mem_canonFormula {cs : List (List Int)} :
    ([] : List Int) ∈ canonFormula cs ↔ ([] : List Int) ∈ cs := by
  unfold canonFormula
  rw [mem_foldl_addClause]
  simp only [List.not_mem_nil, false_or, List.mem_map]
  constructor
  · rintro ⟨c, hc, hcc⟩
    have := (foldl_insOrd_eq_nil hcc).2
    exact this ▸ hc
  · intro h
    exact ⟨[], h, rfl⟩

theorem dpRec_no_empty_clause_check {fuel : Nat} :
    ∀ {phi : List (List Int)} {a st}, ([] : List Int) ∉ phi →
      (dpRec fuel phi a st).pureCheckFired = false := by
  induction fuel with
  | zero => intro phi a st _; rfl
  | succ f ih =>
    intro phi a st h
    simp only [dpRec]
    cases hu : unitLoop (f + 1) phi a st with
    | fuelOut st1 => simp
    | conflict st1 => simp
    | next phi1 a1 st1 =>
      obtain ⟨hu1, hu2, _⟩ := unitLoop_next_props hu
      have hne1 : ([] : List Int) ∉ phi1 := fun hmem => h (hu2 hmem)
      obtain ⟨phi2, a2, st2, hp, hne2, hsub⟩ :=
        @purePass_no_empty ((litsOf phi1).filter (fun l => decide (negate l ∉ litsOf phi1)))
          phi1 a1 st1 hne1
      dsimp only
      rw [hp]
      dsimp only
      by_cases hie : phi2.isEmpty = true
      · simp [hie]
      · rw [if_neg hie, if_neg hne2]
        cases hcand : (litsOf phi2).filter (fun l => decide (negate l ∈ litsOf phi2)) with
        | nil => simp
        | cons lit cs =>
          dsimp only
          apply ih
          intro hmem
          rcases mem_foldl_addClause.mp hmem with hin | hres
          · exact hne2 (List.mem_filter.mp hin).1
          · rcases (@mem_foldl_addClause_image2 _ _ _ _
                (fun (c1 c2 : List Int) =>
                  setUnion (c1.erase lit) (c2.erase (negate lit))) _ _).mp hres with
              hinit | ⟨c1, hc1, c2, hc2, hx⟩
            · cases hinit
            · have hc1phi : c1 ∈ phi2 := (List.mem_filter.mp hc1).1
              rcases erase_eq_nil_cases (setUnion_eq_nil hx.symm) with rfl | rfl
              · exact hne2 hc1phi
              · exact unitLits_nil_no_units hu1 [lit] (hsub _ hc1phi) rfl

theorem dpRec_unsat_on_empty_clause {fuel : Nat} {phi : List (List Int)}
    {a : List (Nat × Bool)} {st : DpStats} (h : ([] : List Int) ∈ phi) :
    (dpRec fuel phi a st).res = DpRes.timeout ∨ (dpRec fuel phi a st).res = DpRes.unsat := by
  cases fuel with
  | zero => exact Or.inl rfl
  | succ f =>
    simp only [dpRec]
    cases hu : unitLoop (f + 1) phi a st with
    | fuelOut st1 => exact Or.inl rfl
    | conflict st1 => exact Or.inr rfl
    | next phi1 a1 st1 =>
      obtain ⟨_, _, hu3⟩ := unitLoop_next_props hu
      have h1 : ([] : List Int) ∈ phi1 := hu3 h
      have hie : phi1.isEmpty = false := by
        cases phi1 with
        | nil => cases h1
        | cons c cs => rfl
      rcases @purePass_empty_clause
          ((litsOf phi1).filter (fun l => decide (negate l ∉ litsOf phi1)))
          phi1 a1 st1 h1 with ⟨st2, hp⟩ | hp
      · right
        dsimp only
        rw [hp]
      · right
        dsimp only
        rw [hp]
        dsimp only
        rw [if_neg (by simp [hie]), if_pos h1]

/-- C3 amended, DP part: whenever DP returns a verdict at all (no
timeout) on a formula containing the empty clause, that verdict is
UNSAT.  The empty clause survives unit propagation and pure-literal
elimination unchanged (neither ever shrinks or removes it without
returning False first), and the termination checks then report UNSAT. -/
theorem c3_dp_unsat_when_empty_clause_present (fuel : Nat) (formula : List (List Int))
    (h : ([] : List Int) ∈ formula)
    (h2 : (dpSolve fuel formula).res ≠ DpRes.timeout) :
    (dpSolve fuel formula).res = DpRes.unsat := by
  rcases @dpRec_unsat_on_empty_clause fuel (canonFormula formula) [] dpStats0
      (empty_mem_canonFormula.mpr h) with ht | hu
  · exact absurd ht h2
  · exact hu

theorem c3_dp_unsat_when_empty_clause_present_witness :
    ([] : List Int) ∈ [([] : List Int)] ∧
    (dpSolve 1 [[]]).res ≠ DpRes.timeout ∧
    (dpSolve 1 [[]]).res = DpRes.unsat :=
  ⟨by decide, by decide,
    c3_dp_unsat_when_empty_clause_present 1 [[]] (by decide) (by decide)⟩

/-- C7 counterexample: on the input formula with clauses ∅ and (1 ∨ 2)
the empty-clause check inside the pure-literal loop does fire: the pure
literal 1 (or 2) removes the clause (1 ∨ 2), the pre-existing empty
clause remains, and the check returns UNSAT from inside the loop. -/
theorem c7_pure_check_fires_on_empty_clause_input :
    (dpSolve 5 [[], [1, 2]]).pureCheckFired = true ∧
    (dpSolve 5 [[], [1, 2]]).res = DpRes.unsat := ⟨by decide, by decide⟩

/-- C7 amended: on every input formula that does not contain the empty
clause, the empty-clause check inside the pure-literal loop never fires
in any recursion state: unit propagation never hands the pure-literal
loop an empty clause without returning UNSAT first, pure-literal
elimination only removes whole clauses, and the variable-elimination
step never creates an empty resolvent because no unit clauses survive
unit propagation. -/
theorem c7_pure_check_never_fires_without_empty_clause (fuel : Nat)
    (formula : List (List Int)) (h : ([] : List Int) ∉ formula) :
    (dpSolve fuel formula).pureCheckFired = false :=
  dpRec_no_empty_clause_check (fun hmem => h (empty_mem_canonFormula.mp hmem))

theorem c7_pure_check_never_fires_without_empty_clause_witness :
    ([] : List Int) ∉ [[1], [-1, 2]] ∧
    (dpSolve 5 [[1], [-1, 2]]).pureCheckFired = false :=
  ⟨by decide, c7_pure_check_never_fires_without_empty_clause 5 [[1], [-1, 2]] (by decide)⟩

/-! ### DIMACS reader lemmas -/

theorem parseTokens_eq_none_iff {ts : List (List Char)} :
    parseTokens ts = none ↔ ∃ t ∈ ts, pyInt t = none := by
  induction ts with
  | nil => simp [parseTokens]
  | cons t rest ih =>
    simp only [parseTokens]
    cases hp : pyInt t with
    | none =>
      exact iff_of_true rfl ⟨t, List.mem_cons_self t rest, hp⟩
    | some n =>
      rw [Option.map_eq_none', ih]
      constructor
      · rintro ⟨x, hx, hpx⟩
        exact ⟨x, List.mem_cons_of_mem _ hx, hpx⟩
      · rintro ⟨x, hx, hpx⟩
        rcases List.mem_cons.mp hx with rfl | hx2
        · rw [hp] at hpx; cases hpx
        · exact ⟨x, hx2, hpx⟩

/-- C6 amended: the reader raises precisely when some kept (non-blank,
non-comment) line contains a token int() rejects; zero literals never
cause an error. -/
theorem c6_error_iff_nonint_token (lines : List String) :
    load_dimacs lines = Except.error ParseErr.nonIntToken ↔
      ∃ line ∈ lines, skipLineB (trimChars line.data) = false ∧
        ∃ t ∈ tokensOf (trimChars line.data), pyInt t = none := by
  induction lines with
  | nil => simp [load_dimacs]
  | cons line rest ih =>
    simp only [load_dimacs]
    by_cases hs : skipLineB (trimChars line.data) = true
    · rw [if_pos hs, ih]
      constructor
      · rintro ⟨l, hl, hprop⟩
        exact ⟨l, List.mem_cons_of_mem _ hl, hprop⟩
      · rintro ⟨l, hl, hskip, hex⟩
        rcases List.mem_cons.mp hl with rfl | hl2
        · rw [hs] at hskip; cases hskip
        · exact ⟨l, hl2, hskip, hex⟩
    · have hs2 : skipLineB (trimChars line.data) = false := by
        cases hbe : skipLineB (trimChars line.data) with
        | false => rfl
        | true => exact absurd hbe hs
      rw [if_neg hs]
      cases hp : parseTokens (tokensOf (trimChars line.data)) with
      | none =>
        exact iff_of_true rfl
          ⟨line, List.mem_cons_self line rest, hs2, parseTokens_eq_none_iff.mp hp⟩
      | some lits =>
        cases hr : load_dimacs rest with
        | error e =>
          cases e
          constructor
          · intro _
            obtain ⟨l, hl, hprop⟩ := ih.mp hr
            exact ⟨l, List.mem_cons_of_mem _ hl, hprop⟩
          · intro _; rfl
        | ok cs =>
          constructor
          · intro hcontra; exact Except.noConfusion hcontra
          · rintro ⟨l, hl, hskip, hex⟩
            rcases List.mem_cons.mp hl with rfl | hl2
            · exact absurd (parseTokens_eq_none_iff.mpr hex) (by rw [hp]; simp)
            · exact absurd (ih.mpr ⟨l, hl2, hskip, hex⟩) (by rw [hr]; simp)

/-! ### Jeroslow-Wang weight order lemmas -/

theorem Wt.leP_refl (a : Wt) : Wt.leP a a := le_refl _

theorem Wt.leP_of_ltP {a b : Wt} (h : Wt.ltP a b) : Wt.leP a b := le_of_lt h

theorem Wt.leP_of_not_ltP {a b : Wt} (h : ¬ Wt.ltP a b) : Wt.leP b a := by
  unfold Wt.ltP at h
  unfold Wt.leP
  exact le_of_not_lt h

theorem Wt.ltP_trans {a b c : Wt} (h1 : Wt.ltP a b) (h2 : Wt.ltP b c) : Wt.ltP a c := by
  have pa : (0 : Int) < 2 ^ a.exp := pow_pos (by norm_num) _
  have pb : (0 : Int) < 2 ^ b.exp := pow_pos (by norm_num) _
  have pc : (0 : Int) < 2 ^ c.exp := pow_pos (by norm_num) _
  unfold Wt.ltP at h1 h2 ⊢
  have hre : (a.num * 2 ^ c.exp) * 2 ^ b.exp < (c.num * 2 ^ a.exp) * 2 ^ b.exp := by
    calc (a.num * 2 ^ c.exp) * 2 ^ b.exp
        = a.num * 2 ^ b.exp * 2 ^ c.exp := by ring
      _ < b.num * 2 ^ a.exp * 2 ^ c.exp := mul_lt_mul_of_pos_right h1 pc
      _ = b.num * 2 ^ c.exp * 2 ^ a.exp := by ring
      _ < c.num * 2 ^ b.exp * 2 ^ a.exp := mul_lt_mul_of_pos_right h2 pa
      _ = (c.num * 2 ^ a.exp) * 2 ^ b.exp := by ring
  exact lt_of_mul_lt_mul_right hre (le_of_lt pb)

theorem Wt.ltP_of_leP_of_ltP {a b c : Wt} (h1 : Wt.leP a b) (h2 : Wt.ltP b c) :
    Wt.ltP a c := by
  have pa : (0 : Int) < 2 ^ a.exp := pow_pos (by norm_num) _
  have pb : (0 : Int) < 2 ^ b.exp := pow_pos (by norm_num) _
  have pc : (0 : Int) < 2 ^ c.exp := pow_pos (by norm_num) _
  unfold Wt.ltP at h2 ⊢
  unfold Wt.leP at h1
  have hre : (a.num * 2 ^ c.exp) * 2 ^ b.exp < (c.num * 2 ^ a.exp) * 2 ^ b.exp := by
    calc (a.num * 2 ^ c.exp) * 2 ^ b.exp
        = a.num * 2 ^ b.exp * 2 ^ c.exp := by ring
      _ ≤ b.num * 2 ^ a.exp * 2 ^ c.exp := mul_le_mul_of_nonneg_right h1 (le_of_lt pc)
      _ = b.num * 2 ^ c.exp * 2 ^ a.exp := by ring
      _ < c.num * 2 ^ b.exp * 2 ^ a.exp := mul_lt_mul_of_pos_right h2 pa
      _ = (c.num * 2 ^ a.exp) * 2 ^ b.exp := by ring
  exact lt_of_mul_lt_mul_right hre (le_of_lt pb)

/-! ### pick_branch_var characterisation -/

theorem pickFold_spec (asg : List (Nat × Bool)) :
    ∀ (jw : List (Nat × Wt)) (acc : Option Nat × Wt),
      (jw.foldl (pickStep asg) acc = acc ∧
        ∀ p ∈ jw, lookupA asg p.1 = none → Wt.leP p.2 acc.2) ∨
      (∃ v wv l1 l2, jw = l1 ++ (v, wv) :: l2 ∧ lookupA asg v = none ∧
        Wt.ltP acc.2 wv ∧ jw.foldl (pickStep asg) acc = (some v, wv) ∧
        (∀ q ∈ l1, lookupA asg q.1 = none → Wt.ltP q.2 wv) ∧
        (∀ q ∈ l2, lookupA asg q.1 = none → Wt.leP q.2 wv)) := by
  intro jw
  induction jw with
  | nil =>
    intro acc
    left
    exact ⟨rfl, by simp⟩
  | cons p ps ih =>
    intro acc
    by_cases hcond : ((lookupA asg p.1).isNone && decide (Wt.ltP acc.2 p.2)) = true
    · have hstep : pickStep asg acc p = (some p.1, p.2) := by
        unfold pickStep; rw [if_pos hcond]
      simp only [Bool.and_eq_true, Option.isNone_iff_eq_none, decide_eq_true_eq] at hcond
      obtain ⟨huns, hlt⟩ := hcond
      rcases ih (some p.1, p.2) with ⟨hfix, hall⟩ |
        ⟨v, wv, l1, l2, hsplit, hv, hvlt, hres, hl1, hl2⟩
      · right
        refine ⟨p.1, p.2, [], ps, by simp, huns, hlt, ?_, by simp, ?_⟩
        · rw [List.foldl_cons, hstep]; exact hfix
        · intro q hq hqu; exact hall q hq hqu
      · right
        refine ⟨v, wv, p :: l1, l2, by rw [List.cons_append, hsplit], hv,
          Wt.ltP_trans hlt hvlt, ?_, ?_, hl2⟩
        · rw [List.foldl_cons, hstep]; exact hres
        · intro q hq hqu
          rcases List.mem_cons.mp hq with rfl | hq2
          · exact hvlt
          · exact hl1 q hq2 hqu
    · have hstep : pickStep asg acc p = acc := by
        unfold pickStep; rw [if_neg hcond]
      simp only [Bool.and_eq_true, Option.isNone_iff_eq_none, decide_eq_true_eq,
        not_and] at hcond
      have hni : lookupA asg p.1 = none → Wt.leP p.2 acc.2 := fun hq =>
        Wt.leP_of_not_ltP (hcond hq)
      rcases ih acc with ⟨hfix, hall⟩ |
        ⟨v, wv, l1, l2, hsplit, hv, hvlt, hres, hl1, hl2⟩
      · left
        refine ⟨?_, ?_⟩
        · rw [List.foldl_cons, hstep]; exact hfix
        · intro q hq hqu
          rcases List.mem_cons.mp hq with rfl | hq2
          · exact hni hqu
          · exact hall q hq2 hqu
      · right
        refine ⟨v, wv, p :: l1, l2, by rw [List.cons_append, hsplit], hv, hvlt, ?_, ?_, hl2⟩
        · rw [List.foldl_cons, hstep]; exact hres
        · intro q hq hqu
          rcases List.mem_cons.mp hq with rfl | hq2
          · exact Wt.ltP_of_leP_of_ltP (hni hqu) hvlt
          · exact hl1 q hq2 hqu

/-- C8 amended: pick_branch_var returns an unassigned variable whose
weight is maximal among the unassigned variables of the weight table,
and among equally weighted unassigned variables it returns the one
occurring first in the table's insertion order (first occurrence in the
clause list), all earlier unassigned entries having strictly smaller
weight; the first branch of the decision then enqueues the variable with
positive polarity. -/
theorem c8_pick_max_weight_first_occurrence (jw : List (Nat × Wt))
    (asg : List (Nat × Bool)) (v : Nat) (h : pickBranchVar jw asg = some v) :
    lookupA asg v = none ∧
    (∃ wv l1 l2, jw = l1 ++ (v, wv) :: l2 ∧
      (∀ q ∈ l1, lookupA asg q.1 = none → Wt.ltP q.2 wv) ∧
      (∀ q ∈ jw, lookupA asg q.1 = none → Wt.leP q.2 wv)) ∧
    (1 ≤ v → 0 < firstDecisionLit v) := by
  unfold pickBranchVar at h
  rcases pickFold_spec asg jw ((none : Option Nat), Wt.negOne) with ⟨hfix, _⟩ |
    ⟨v2, wv, l1, l2, hsplit, hv2, _, hres, hl1, hl2⟩
  · rw [hfix] at h
    simp at h
  · rw [hres] at h
    have hv2v : v2 = v := by simpa using h
    subst hv2v
    refine ⟨hv2, ⟨wv, l1, l2, hsplit, hl1, ?_⟩, ?_⟩
    · intro q hq hqu
      rw [hsplit] at hq
      rcases List.mem_append.mp hq with hq1 | hq2
      · exact Wt.leP_of_ltP (hl1 q hq1 hqu)
      · rcases List.mem_cons.mp hq2 with rfl | hq3
        · exact Wt.leP_refl wv
        · exact hl2 q hq3 hqu
    · intro hv1
      unfold firstDecisionLit
      exact Int.ofNat_pos.mpr hv1

theorem c8_pick_max_weight_first_occurrence_witness :
    pickBranchVar [(5, Wt.ofLen 1)] [] = some 5 ∧
    (lookupA [] 5 = none ∧
      (∃ wv l1 l2, [(5, Wt.ofLen 1)] = l1 ++ (5, wv) :: l2 ∧
        (∀ q ∈ l1, lookupA [] q.1 = none → Wt.ltP q.2 wv) ∧
        (∀ q ∈ [(5, Wt.ofLen 1)], lookupA [] q.1 = none → Wt.leP q.2 wv)) ∧
      (1 ≤ 5 → 0 < firstDecisionLit 5)) :=
  ⟨by decide, c8_pick_max_weight_first_occurrence [(5, Wt.ofLen 1)] [] 5 (by decide)⟩
